import Mathlib

/-!
Verification of the QIM-DM color-watermarking library (`color_watermark`).

The Rust sources under `src/` are shallowly embedded here.  `f32` values are
modeled as exact rationals (`ℚ`); the Rust numeric primitives that the code
relies on are modeled explicitly:

* `rtrunc` models `f32::trunc` semantics (rounding toward zero), which is what
  the Rust float remainder operator `%` is defined from;
* `rmod` models the Rust `%` on floats: `x % y = x - y * (x / y).trunc()`;
* `toU32` models the Rust cast `x as u32` on floats, which saturates: negative
  values collapse to `0`, values above `u32::MAX` collapse to `u32::MAX`;
* `u8_sat` models the Rust cast `x as u8` on floats (saturating as well).

Fallible Rust code (out-of-bounds indexing, integer division by zero, failed
`assert!`) is modeled with `Option`: `none` is a panic.
-/

/-- Rust `f32::trunc`: round toward zero. -/
def rtrunc (x : ℚ) : ℤ := if x < 0 then ⌈x⌉ else ⌊x⌋

/-- Rust `%` on floats: `x % y = x - y * (x / y).trunc()` (sign of the dividend). -/
def rmod (x y : ℚ) : ℚ := x - y * rtrunc (x / y)

/-- Rust `as u32` cast from a float: truncate toward zero, saturating at `0`
and at `u32::MAX = 2^32 - 1`. -/
def toU32 (x : ℚ) : ℕ := if x < 0 then 0 else min (rtrunc x).toNat (2 ^ 32 - 1)

/-- Rust `as u8` cast from a float: truncate toward zero, saturating at `0`
and at `u8::MAX = 255`. -/
def u8_sat (x : ℚ) : ℕ := if x < 0 then 0 else min (rtrunc x).toNat 255

/-- The value computed by `round_to_step_size` in `src/qim.rs` when the `u32`
divisions do not panic: both branches divide the truncated input by the
truncated step as unsigned integers. -/
def roundVal (num step_size : ℚ) : ℚ :=
  if rmod num step_size > step_size / 2 then
    ((toU32 num / toU32 step_size + 1 : ℕ) : ℚ) * step_size
  else
    ((toU32 num / toU32 step_size : ℕ) : ℚ) * step_size

/-- `round_to_step_size` from `src/qim.rs`.  Both branches perform the integer
division `num as u32 / step_size as u32`; in Rust this panics (models as
`none`) exactly when `step_size as u32 == 0`, i.e. when `step_size < 1`. -/
def round_to_step_size (num step_size : ℚ) : Option ℚ :=
  if toU32 step_size = 0 then none else some (roundVal num step_size)

/-- `in_range` from `src/qim.rs`: the fixed mask of flat coefficient indices
inside a 64-element block that carry payload bits. -/
def in_range (i : ℕ) : Bool :=
  decide ((4 ≤ i ∧ i ≤ 7) ∨ (11 ≤ i ∧ i ≤ 15) ∨ (18 ≤ i ∧ i ≤ 20))

/-- `generate_dither_signal` from `src/qim.rs`.  The `ChaCha8Rng` sample stream
(a deterministic pure function of the seed and the sampling range, i.e. of
`(seed, step_size)`) is abstracted by the argument `draws`; draw `k` is the
value `rng.gen_range(-step_size/2 .. step_size/2)` of loop iteration `k`. -/
def generate_dither_signal (length : ℕ) (step_size : ℚ) (draws : ℕ → ℚ) :
    List (ℚ × ℚ) :=
  (List.range length).map (fun k =>
    let tmp := draws k
    if tmp > 0 then (tmp, tmp - step_size / 2) else (tmp, tmp + step_size / 2))

/-- Dither selection inside the embedding loop in `src/qim.rs`:
`if watermark[j] { dither_signal[j].1 } else { dither_signal[j].0 }`. -/
def dsel (b : Bool) (p : ℚ × ℚ) : ℚ := if b then p.2 else p.1

/-- The loop body of `embed_watermark` from `src/qim.rs`, recursing over the
host signal with the running flat index `i` and dither/watermark index `j`.
Returns the rewritten signal together with the final value of `j`; `none`
models a panic (out-of-bounds `watermark[j]` or `dither_signal[j]`, or a
division by zero inside `round_to_step_size`). -/
def embedAux (wm : List Bool) (dith : List (ℚ × ℚ)) (step_size : ℚ) :
    List ℚ → ℕ → ℕ → Option (List ℚ × ℕ)
  | [], _, j => some ([], j)
  | h :: t, i, j =>
    if in_range i then
      (wm[j]?).bind (fun b =>
        (dith[j]?).bind (fun p =>
          (round_to_step_size (h + dsel b p) step_size).bind (fun rv =>
            (embedAux wm dith step_size t (i + 1) (j + 1)).map
              (fun r => ((rv - dsel b p) :: r.1, r.2)))))
    else
      (embedAux wm dith step_size t (i + 1) j).map (fun r => (h :: r.1, r.2))

/-- `embed_watermark` from `src/qim.rs`: runs the loop starting at indices
`0, 0`, then executes `assert!(j == 12)` (failure models as `none`). -/
def embed_watermark (host_signal : List ℚ) (watermark : List Bool)
    (dither_signal : List (ℚ × ℚ)) (step_size : ℚ) : Option (List ℚ) :=
  match embedAux watermark dither_signal step_size host_signal 0 0 with
  | some (l, j) => if j = 12 then some l else none
  | none => none

/-- The decoding decision of `extract_watermark` in `src/qim.rs` for one
coefficient, given that `round_to_step_size` did not panic: push `false` when
the re-quantization error of the probe is within `step_size / 10`. -/
def decBit (tmp step_size : ℚ) : Bool :=
  if |roundVal tmp step_size - tmp| < step_size / 10 then false else true

/-- The loop body of `extract_watermark` from `src/qim.rs` with running flat
index `i` and dither index `j`; returns the decoded bits and the final `j`. -/
def extractAux (dith : List (ℚ × ℚ)) (step_size : ℚ) :
    List ℚ → ℕ → ℕ → Option (List Bool × ℕ)
  | [], _, j => some ([], j)
  | h :: t, i, j =>
    if in_range i then
      (dith[j]?).bind (fun p =>
        (round_to_step_size (h + p.1) step_size).bind (fun rv =>
          (extractAux dith step_size t (i + 1) (j + 1)).map
            (fun r =>
              ((if |rv - (h + p.1)| < step_size / 10 then false else true) :: r.1, r.2))))
    else
      extractAux dith step_size t (i + 1) j

/-- `extract_watermark` from `src/qim.rs`: runs the loop starting at indices
`0, 0`, then executes `assert!(j == 12)` (failure models as `none`). -/
def extract_watermark (watermarked_signal : List ℚ)
    (dither_signal : List (ℚ × ℚ)) (step_size : ℚ) : Option (List Bool) :=
  match extractAux dither_signal step_size watermarked_signal 0 0 with
  | some (l, j) => if j = 12 then some l else none
  | none => none

/-- The number of mask positions (`in_range` flat indices) that the embedding
and extraction loops encounter while scanning a signal `l` whose first element
sits at flat index `i`; this is the amount by which the loop counter `j`
advances. -/
def cnt : List ℚ → ℕ → ℕ
  | [], _ => 0
  | _ :: t, i => (if in_range i then 1 else 0) + cnt t (i + 1)

/-- Reference form of the embedding loop of `src/qim.rs`: the pure rewrite it
performs when no panic occurs (indexing via `getD`). -/
def embedSpec (wm : List Bool) (dith : List (ℚ × ℚ)) (step_size : ℚ) :
    List ℚ → ℕ → ℕ → List ℚ
  | [], _, _ => []
  | h :: t, i, j =>
    if in_range i then
      (roundVal (h + dsel (wm.getD j false) (dith.getD j (0, 0))) step_size -
          dsel (wm.getD j false) (dith.getD j (0, 0))) ::
        embedSpec wm dith step_size t (i + 1) (j + 1)
    else
      h :: embedSpec wm dith step_size t (i + 1) j

/-- Reference form of the extraction loop of `src/qim.rs`: the pure bit list
it decodes when no panic occurs. -/
def extractSpec (dith : List (ℚ × ℚ)) (step_size : ℚ) :
    List ℚ → ℕ → ℕ → List Bool
  | [], _, _ => []
  | h :: t, i, j =>
    if in_range i then
      decBit (h + (dith.getD j (0, 0)).1) step_size ::
        extractSpec dith step_size t (i + 1) (j + 1)
    else
      extractSpec dith step_size t (i + 1) j

/-- The shape of every pair produced by `generate_dither_signal`: a draw `t`
from `[-step/2, step/2)` paired with `t - step/2` when `t > 0` and with
`t + step/2` otherwise. -/
def DitherPair (s : ℚ) (p : ℚ × ℚ) : Prop :=
  ∃ t : ℚ, -(s / 2) ≤ t ∧ t < s / 2 ∧
    p = if 0 < t then (t, t - s / 2) else (t, t + s / 2)

/-- The sub-sequence of signal values sitting at mask (`in_range`)
positions, scanning from flat index `i`. -/
def inRangeVals : List ℚ → ℕ → List ℚ
  | [], _ => []
  | h :: t, i =>
    if in_range i then h :: inRangeVals t (i + 1) else inRangeVals t (i + 1)

/-- `merge_into_plane` from `src/dct.rs` (`BLK_WIDTH = 8`): writes each 8x8
block back into a `width * height` byte plane, converting every float sample
with the Rust cast `as u8` (`u8_sat`).  Rust's panicking out-of-bounds store
is modeled by `List.set` (a no-op out of bounds); all uses below keep every
index in bounds. -/
def merge_into_plane (blocks : List (List ℚ)) (width height : ℕ) : List ℕ :=
  blocks.enum.foldl
    (fun plane bi_block =>
      (List.range 8).foldl
        (fun pl j =>
          (List.range 8).foldl
            (fun pl2 i =>
              pl2.set
                ((bi_block.1 / (width / 8) * 8 + j) * width +
                  (bi_block.1 % (width / 8) * 8 + i))
                (u8_sat (bi_block.2.getD (j * 8 + i) 0)))
            pl)
        plane)
    (List.replicate (width * height) 0)

/-- `recode_to_3bits` from `src/color_recode.rs`: every byte of the decoded
pixel buffer becomes `true` exactly when it exceeds `127`. -/
def recode_to_3bits (bytes : List ℕ) : List Bool :=
  bytes.map (fun byte => decide (127 < byte))

/-- The loop body of `recode_to_rgb` from `src/color_recode.rs`: iterates the
bit list with index `i`, latching `r` at `i % 3 = 0`, `g` at `i % 3 = 1`, and
writing pixel `(r, g, b)` at `(x, y)` at `i % 3 = 2` before advancing the
raster position.  The image is a row-major list of `width * height` RGB
triples; `put_pixel` out of bounds (Rust panic) models as `none`. -/
def rgbAux (w h : ℕ) :
    List Bool → ℕ → ℕ → ℕ → ℕ → ℕ → List (ℕ × ℕ × ℕ) →
    Option (List (ℕ × ℕ × ℕ))
  | [], _, _, _, _, _, img => some img
  | bit :: rest, i, x, y, r, g, img =>
    if i % 3 = 0 then
      rgbAux w h rest (i + 1) x y (if bit then 255 else 0) g img
    else if i % 3 = 1 then
      rgbAux w h rest (i + 1) x y r (if bit then 255 else 0) img
    else
      if x < w ∧ y < h then
        rgbAux w h rest (i + 1) ((x + 1) % w)
          (y + if x + 1 = w then 1 else 0) r g
          (img.set (y * w + x) (r, g, (if bit then 255 else 0)))
      else none

/-- `recode_to_rgb` from `src/color_recode.rs`: starts from an all-black
`width * height` RGB image with `x = y = 0` and `r = g = 0`. -/
def recode_to_rgb (bits : List Bool) (width height : ℕ) :
    Option (List (ℕ × ℕ × ℕ)) :=
  rgbAux width height bits 0 0 0 0 0
    (List.replicate (width * height) (0, 0, 0))

/-- Reference pixel stream for the round-trip statement: consecutive bit
triples become RGB triples with `255` for `true` and `0` for `false`. -/
def pixTriples : List Bool → List (ℕ × ℕ × ℕ)
  | t0 :: t1 :: t2 :: rest =>
    ((if t0 then 255 else 0), (if t1 then 255 else 0),
      (if t2 then 255 else 0)) :: pixTriples rest
  | _ => []

/-- Writing a run of values into consecutive positions starting at `p`. -/
def writeSeq : List (ℕ × ℕ × ℕ) → ℕ → List (ℕ × ℕ × ℕ) → List (ℕ × ℕ × ℕ)
  | img, _, [] => img
  | img, p, v :: vs => writeSeq (img.set p v) (p + 1) vs

/-- Flattening an RGB triple list back into the raw channel-interleaved byte
order. -/
def flatRGB : List (ℕ × ℕ × ℕ) → List ℕ
  | [] => []
  | t :: rest => t.1 :: t.2.1 :: t.2.2 :: flatRGB rest

/-- Evaluation helper: `rtrunc` on a nonnegative value is the floor. -/
theorem rtrunc_eq_of_nonneg (x : ℚ) (z : ℤ) (h0 : 0 ≤ x) (h1 : (z : ℚ) ≤ x)
    (h2 : x < z + 1) : rtrunc x = z := by
  rw [rtrunc, if_neg (not_lt.2 h0)]
  exact Int.floor_eq_iff.2 ⟨h1, by exact_mod_cast h2⟩

/-- Evaluation helper: `rtrunc` on a negative value is the ceiling. -/
theorem rtrunc_eq_of_neg (x : ℚ) (z : ℤ) (h0 : x < 0) (h1 : (z : ℚ) - 1 < x)
    (h2 : x ≤ z) : rtrunc x = z := by
  rw [rtrunc, if_pos h0]
  exact Int.ceil_eq_iff.2 ⟨by exact_mod_cast h1, h2⟩

@[simp] theorem rtrunc_intCast (z : ℤ) : rtrunc (z : ℚ) = z := by
  rcases lt_or_le z 0 with h | h
  · refine rtrunc_eq_of_neg _ z (by exact_mod_cast h) (by norm_num) le_rfl
  · refine rtrunc_eq_of_nonneg _ z (by exact_mod_cast h) le_rfl (by norm_num)

@[simp] theorem rtrunc_natCast (n : ℕ) : rtrunc (n : ℚ) = n := by
  exact_mod_cast rtrunc_intCast (n : ℤ)

@[simp] theorem rtrunc_zero : rtrunc 0 = 0 := by
  simpa using rtrunc_intCast 0

@[simp] theorem rtrunc_one : rtrunc 1 = 1 := by
  simpa using rtrunc_intCast 1

@[simp] theorem rtrunc_ofNat (n : ℕ) [n.AtLeastTwo] :
    rtrunc (no_index (OfNat.ofNat n) : ℚ) = OfNat.ofNat n := by
  exact_mod_cast rtrunc_natCast n

@[simp] theorem intToNat_ofNat (n : ℕ) [n.AtLeastTwo] :
    (no_index (OfNat.ofNat n) : ℤ).toNat = OfNat.ofNat n := rfl

@[simp] theorem rtrunc_neg (x : ℚ) : rtrunc (-x) = -rtrunc x := by
  rcases lt_trichotomy x 0 with h | h | h
  · rw [rtrunc, rtrunc, if_neg (by linarith), if_pos h]
    exact Int.floor_neg
  · simp [h]
  · rw [rtrunc, rtrunc, if_pos (by linarith), if_neg (by linarith)]
    exact Int.ceil_neg

theorem cnt_congr : ∀ (l l' : List ℚ) (i : ℕ), l.length = l'.length →
    cnt l i = cnt l' i := by
  intro l
  induction l with
  | nil => intro l' i h; cases l' <;> simp_all [cnt]
  | cons h t ih =>
    intro l' i hlen
    cases l' with
    | nil => simp at hlen
    | cons h' t' =>
      simp only [List.length_cons, Nat.add_right_cancel_iff] at hlen
      simp [cnt, ih t' (i + 1) hlen]

/-- A 64-element block contains exactly the 12 mask positions. -/
theorem cnt_64 (l : List ℚ) (hl : l.length = 64) : cnt l 0 = 12 := by
  rw [cnt_congr l (List.replicate 64 0) 0 (by simp [hl])]
  rfl

theorem embedSpec_length (wm : List Bool) (dith : List (ℚ × ℚ)) (s : ℚ) :
    ∀ (l : List ℚ) (i j : ℕ), (embedSpec wm dith s l i j).length = l.length := by
  intro l
  induction l with
  | nil => intro i j; simp [embedSpec]
  | cons h t ih =>
    intro i j
    by_cases hin : in_range i <;> simp [embedSpec, hin, ih]

theorem embedAux_eq (wm : List Bool) (dith : List (ℚ × ℚ)) (s : ℚ)
    (hs : toU32 s ≠ 0) :
    ∀ (l : List ℚ) (i j : ℕ), j + cnt l i ≤ wm.length →
    j + cnt l i ≤ dith.length →
    embedAux wm dith s l i j = some (embedSpec wm dith s l i j, j + cnt l i) := by
  intro l
  induction l with
  | nil => intro i j h1 h2; simp [embedAux, embedSpec, cnt]
  | cons h t ih =>
    intro i j h1 h2
    by_cases hin : in_range i
    · rw [cnt, if_pos hin] at h1 h2
      have hj : j < wm.length := by omega
      have hj2 : j < dith.length := by omega
      rw [embedAux, if_pos hin, List.getElem?_eq_getElem hj,
        List.getElem?_eq_getElem hj2]
      simp only [Option.some_bind]
      unfold round_to_step_size
      rw [if_neg hs]
      simp only [Option.some_bind]
      rw [ih (i + 1) (j + 1) (by omega) (by omega)]
      rw [embedSpec, if_pos hin, cnt, if_pos hin]
      simp only [Option.map_some']
      rw [List.getD_eq_getElem?_getD, List.getElem?_eq_getElem hj,
        List.getD_eq_getElem?_getD, List.getElem?_eq_getElem hj2]
      simp only [Option.getD_some]
      refine congrArg some (Prod.ext rfl ?_)
      simp only
      omega
    · rw [cnt, if_neg hin] at h1 h2
      rw [embedAux, if_neg hin, ih (i + 1) j (by omega) (by omega)]
      rw [embedSpec, if_neg hin, cnt, if_neg hin]
      simp

theorem extractAux_eq (dith : List (ℚ × ℚ)) (s : ℚ) (hs : toU32 s ≠ 0) :
    ∀ (l : List ℚ) (i j : ℕ), j + cnt l i ≤ dith.length →
    extractAux dith s l i j = some (extractSpec dith s l i j, j + cnt l i) := by
  intro l
  induction l with
  | nil => intro i j h1; simp [extractAux, extractSpec, cnt]
  | cons h t ih =>
    intro i j h1
    by_cases hin : in_range i
    · rw [cnt, if_pos hin] at h1
      have hj : j < dith.length := by omega
      rw [extractAux, if_pos hin, List.getElem?_eq_getElem hj]
      simp only [Option.some_bind]
      unfold round_to_step_size
      rw [if_neg hs]
      simp only [Option.some_bind]
      rw [ih (i + 1) (j + 1) (by omega)]
      rw [extractSpec, if_pos hin, cnt, if_pos hin]
      simp only [Option.map_some']
      rw [List.getD_eq_getElem?_getD, List.getElem?_eq_getElem hj]
      simp only [Option.getD_some]
      refine congrArg some (Prod.ext ?_ ?_)
      · simp only [decBit]
      · simp only
        omega
    · rw [cnt, if_neg hin] at h1
      rw [extractAux, if_neg hin, ih (i + 1) j (by omega)]
      rw [extractSpec, if_neg hin, cnt, if_neg hin]
      simp

/-- On any 64-element block (with at least 12 watermark bits and 12 dither
pairs, and a step whose `u32` truncation is nonzero) the embedding call of
`src/qim.rs` succeeds and returns the reference rewrite. -/
theorem embed_eq (wm : List Bool) (dith : List (ℚ × ℚ)) (s : ℚ)
    (hs : toU32 s ≠ 0) (l : List ℚ) (hl : l.length = 64)
    (hw : 12 ≤ wm.length) (hd : 12 ≤ dith.length) :
    embed_watermark l wm dith s = some (embedSpec wm dith s l 0 0) := by
  have hc := cnt_64 l hl
  rw [embed_watermark, embedAux_eq wm dith s hs l 0 0 (by omega) (by omega)]
  simp [hc]

/-- On any 64-element signal the extraction call of `src/qim.rs` succeeds and
returns the reference bit list. -/
theorem extract_eq (dith : List (ℚ × ℚ)) (s : ℚ) (hs : toU32 s ≠ 0)
    (l : List ℚ) (hl : l.length = 64) (hd : 12 ≤ dith.length) :
    extract_watermark l dith s = some (extractSpec dith s l 0 0) := by
  have hc := cnt_64 l hl
  rw [extract_watermark, extractAux_eq dith s hs l 0 0 (by omega)]
  simp [hc]

theorem embedAux_frame (wm : List Bool) (dith : List (ℚ × ℚ)) (s : ℚ) :
    ∀ (l : List ℚ) (i j : ℕ) (res : List ℚ × ℕ),
    embedAux wm dith s l i j = some res →
    res.1.length = l.length ∧
    ∀ (k : ℕ) (d : ℚ), in_range (i + k) = false → res.1.getD k d = l.getD k d := by
  intro l
  induction l with
  | nil =>
    intro i j res hres
    simp only [embedAux, Option.some.injEq] at hres
    subst hres
    simp
  | cons h t ih =>
    intro i j res hres
    by_cases hin : in_range i
    · rw [embedAux, if_pos hin] at hres
      cases hwj : wm[j]? with
      | none => rw [hwj] at hres; simp at hres
      | some b =>
        rw [hwj] at hres
        cases hdj : dith[j]? with
        | none => rw [hdj] at hres; simp at hres
        | some p =>
          rw [hdj] at hres
          simp only [Option.some_bind] at hres
          cases hrv : round_to_step_size (h + dsel b p) s with
          | none => rw [hrv] at hres; simp at hres
          | some rv =>
            rw [hrv] at hres
            simp only [Option.some_bind] at hres
            cases he : embedAux wm dith s t (i + 1) (j + 1) with
            | none => rw [he] at hres; simp at hres
            | some r =>
              rw [he] at hres
              simp only [Option.map_some', Option.some.injEq] at hres
              subst hres
              obtain ⟨hl, hp⟩ := ih (i + 1) (j + 1) r he
              constructor
              · simpa using hl
              · intro k d hk
                cases k with
                | zero =>
                  rw [Nat.add_zero] at hk
                  rw [hin] at hk
                  cases hk
                | succ m =>
                  simp only [List.getD_cons_succ]
                  refine hp m d ?_
                  rwa [show i + 1 + m = i + (m + 1) by omega]
    · rw [embedAux, if_neg hin] at hres
      cases he : embedAux wm dith s t (i + 1) j with
      | none => rw [he] at hres; simp at hres
      | some r =>
        rw [he] at hres
        simp only [Option.map_some', Option.some.injEq] at hres
        subst hres
        obtain ⟨hl, hp⟩ := ih (i + 1) j r he
        constructor
        · simpa using hl
        · intro k d hk
          cases k with
          | zero => simp
          | succ m =>
            simp only [List.getD_cons_succ]
            refine hp m d ?_
            rwa [show i + 1 + m = i + (m + 1) by omega]

theorem in_range_iff (i : ℕ) :
    in_range i = true ↔ i ∈ ([4, 5, 6, 7, 11, 12, 13, 14, 15, 18, 19, 20] : List ℕ) := by
  simp only [in_range, decide_eq_true_eq, List.mem_cons, List.not_mem_nil, or_false]
  omega

/-- C9 (frame property of embedding): whenever `embed_watermark` returns a
rewritten block, that block has the same length as the input and agrees with
the input at every flat index outside the fixed mask
`{4,5,6,7,11,12,13,14,15,18,19,20}` (which is exactly the set accepted by
`in_range`); the function writes nothing outside the block it returns. -/
theorem embed_watermark_frame (block : List ℚ) (wm : List Bool)
    (dith : List (ℚ × ℚ)) (s : ℚ) (out : List ℚ)
    (hout : embed_watermark block wm dith s = some out) :
    out.length = block.length ∧
    (∀ (i : ℕ) (d : ℚ), in_range i = false → out.getD i d = block.getD i d) ∧
    (∀ i : ℕ, in_range i = true ↔
      i ∈ ([4, 5, 6, 7, 11, 12, 13, 14, 15, 18, 19, 20] : List ℕ)) := by
  rw [embed_watermark] at hout
  cases haux : embedAux wm dith s block 0 0 with
  | none => rw [haux] at hout; cases hout
  | some r =>
    rw [haux] at hout
    by_cases hj : r.2 = 12
    · have : some r.1 = some out := by
        rw [← hout]
        cases r with
        | mk a b =>
          simp only at hj
          simp [hj]
      obtain rfl : r.1 = out := by injection this
      obtain ⟨hl, hp⟩ := embedAux_frame wm dith s block 0 0 r haux
      refine ⟨hl, fun i d hi => ?_, in_range_iff⟩
      have := hp i d (by simpa using hi)
      simpa using this
    · exfalso
      cases r with
      | mk a b =>
        simp only at hj
        simp [hj] at hout

theorem toU32_natCast (n : ℕ) : toU32 (n : ℚ) = min n (2 ^ 32 - 1) := by
  rw [toU32, if_neg (not_lt.2 (by positivity))]
  rw [rtrunc_natCast, Int.toNat_natCast]

theorem toU32_natCast_of_le (n : ℕ) (hn : n ≤ 2 ^ 32 - 1) : toU32 (n : ℚ) = n := by
  rw [toU32_natCast, min_eq_left hn]

theorem toU32_ne_zero (s : ℚ) (hs : 1 ≤ s) : toU32 s ≠ 0 := by
  rw [toU32, if_neg (not_lt.2 (by linarith))]
  have h0 : 0 ≤ s := by linarith
  have h1 : (1 : ℤ) ≤ rtrunc s := by
    rw [rtrunc, if_neg (not_lt.2 h0)]
    exact Int.le_floor.2 (by exact_mod_cast hs)
  have h2 : 1 ≤ (rtrunc s).toNat := by omega
  have h3 : (1 : ℕ) ≤ 2 ^ 32 - 1 := by norm_num
  have := Nat.le_min.2 ⟨h2, h3⟩
  omega

theorem embed_watermark_frame_witness :
    (embedSpec (List.replicate 12 false) (List.replicate 12 ((0 : ℚ), 5)) 10
        (List.replicate 64 (0 : ℚ)) 0 0).length =
      (List.replicate 64 (0 : ℚ)).length :=
  (embed_watermark_frame _ _ _ _ _
    (embed_eq (List.replicate 12 false) (List.replicate 12 ((0 : ℚ), 5)) 10
      (by norm_num [toU32]) (List.replicate 64 (0 : ℚ)) (by simp) (by simp)
      (by simp))).1

theorem rtrunc_nonneg_floor (x : ℚ) (hx : 0 ≤ x) : rtrunc x = ⌊x⌋ := by
  rw [rtrunc, if_neg (not_lt.2 hx)]

theorem rmod_nonpos_of_neg (x s : ℚ) (hx : x < 0) (hs : 0 < s) : rmod x s ≤ 0 := by
  have hdiv : x / s < 0 := div_neg_of_neg_of_pos hx hs
  rw [rmod, rtrunc, if_pos hdiv]
  have hceil : x / s ≤ (⌈x / s⌉ : ℚ) := Int.le_ceil _
  have hmul : x ≤ s * (⌈x / s⌉ : ℚ) := by
    have := mul_le_mul_of_nonneg_left hceil (le_of_lt hs)
    rwa [mul_div_cancel₀ x (ne_of_gt hs)] at this
  linarith

/-- `round_to_step_size` always returns a natural multiple of the step. -/
theorem roundVal_eq_mul (x s : ℚ) : ∃ m : ℕ, roundVal x s = (m : ℚ) * s := by
  rw [roundVal]
  split_ifs with h
  · exact ⟨toU32 x / toU32 s + 1, by push_cast; ring⟩
  · exact ⟨toU32 x / toU32 s, rfl⟩

/-- Exact re-quantization: feeding a natural multiple `m * n` of a natural
step `n` back through the quantizer returns it unchanged, provided `m * n`
does not overflow the `u32` cast. -/
theorem roundVal_mul_self (n : ℕ) (hn : 1 ≤ n) (hn32 : n ≤ 2 ^ 32 - 1) (m : ℕ)
    (hm : m * n ≤ 2 ^ 32 - 1) :
    roundVal ((m * n : ℕ) : ℚ) ((n : ℕ) : ℚ) = ((m * n : ℕ) : ℚ) := by
  have hnq : (0 : ℚ) < (n : ℚ) := by exact_mod_cast hn
  have hdiv : ((m * n : ℕ) : ℚ) / (n : ℚ) = (m : ℚ) := by
    push_cast
    field_simp
  have hmod : rmod ((m * n : ℕ) : ℚ) ((n : ℕ) : ℚ) = 0 := by
    rw [rmod, hdiv, rtrunc_natCast]
    push_cast
    ring
  rw [roundVal, hmod, if_neg (not_lt.2 (by positivity))]
  rw [toU32_natCast_of_le _ hm, toU32_natCast_of_le _ hn32,
    Nat.mul_div_cancel m (by omega)]
  push_cast
  ring

/-- The quantizer output on any input bounded by `2^31 + 2^29` is a natural
multiple of the natural step `n ≤ 2^30` that itself stays below the `u32`
saturation bound. -/
theorem roundVal_bounded (x : ℚ) (n : ℕ) (hn : 1 ≤ n) (hn30 : n ≤ 2 ^ 30)
    (hx : x ≤ 2 ^ 31 + 2 ^ 29) :
    ∃ m : ℕ, roundVal x (n : ℚ) = (m : ℚ) * (n : ℚ) ∧ m * n ≤ 2 ^ 32 - 1 := by
  have hnq : (0 : ℚ) < (n : ℚ) := by exact_mod_cast hn
  have hn32 : n ≤ 2 ^ 32 - 1 := by omega
  rcases lt_or_le x 0 with hneg | hpos
  · refine ⟨0, ?_, by norm_num⟩
    have hcond := rmod_nonpos_of_neg x (n : ℚ) hneg hnq
    rw [roundVal, if_neg (not_lt.2 (by linarith)), toU32, if_pos hneg]
    simp
  · have hfl : rtrunc x = ⌊x⌋ := rtrunc_nonneg_floor x hpos
    have hfl_le : ⌊x⌋ ≤ (2 ^ 31 + 2 ^ 29 : ℤ) := by
      have : (⌊x⌋ : ℚ) ≤ 2 ^ 31 + 2 ^ 29 := le_trans (Int.floor_le x) hx
      exact_mod_cast this
    have htn : toU32 x ≤ 2 ^ 31 + 2 ^ 29 := by
      rw [toU32, if_neg (not_lt.2 hpos), hfl]
      have h1 : ⌊x⌋.toNat ≤ 2 ^ 31 + 2 ^ 29 := by omega
      omega
    have hstep : toU32 (n : ℚ) = n := toU32_natCast_of_le n hn32
    have hq : toU32 x / n * n ≤ toU32 x := Nat.div_mul_le_self _ _
    rw [roundVal, hstep]
    split_ifs with hcond
    · refine ⟨toU32 x / n + 1, by push_cast; ring, ?_⟩
      have : (toU32 x / n + 1) * n = toU32 x / n * n + n := by ring
      omega
    · exact ⟨toU32 x / n, rfl, by omega⟩

/-- The decoder reads bit `1` from any probe that sits exactly halfway
between multiples of the natural step `n`. -/
theorem decBit_half (n : ℕ) (hn : 1 ≤ n) (tmp : ℚ) (m : ℕ)
    (htmp : tmp = (m : ℚ) * n + (n : ℚ) / 2 ∨ tmp = (m : ℚ) * n - (n : ℚ) / 2) :
    decBit tmp (n : ℚ) = true := by
  have hnq : (1 : ℚ) ≤ (n : ℚ) := by exact_mod_cast hn
  obtain ⟨k, hk⟩ := roundVal_eq_mul tmp (n : ℚ)
  have hmain : (n : ℚ) / 2 ≤ |(k : ℚ) * n - tmp| := by
    have hz : ((k : ℤ) - (m : ℤ) ≤ -1) ∨ ((k : ℤ) - (m : ℤ) = 0) ∨
        (1 ≤ (k : ℤ) - (m : ℤ)) := by omega
    have hcast : (k : ℚ) * n - (m : ℚ) * n = (((k : ℤ) - (m : ℤ) : ℤ) : ℚ) * n := by
      push_cast
      ring
    rcases hz with hz | hz | hz
    · have hzq : (((k : ℤ) - (m : ℤ) : ℤ) : ℚ) ≤ -1 := by exact_mod_cast hz
      have : (k : ℚ) * n - (m : ℚ) * n ≤ -(n : ℚ) := by
        rw [hcast]
        nlinarith
      rcases htmp with rfl | rfl
      · exact le_abs.2 (Or.inr (by linarith))
      · exact le_abs.2 (Or.inr (by linarith))
    · have hzq : (k : ℚ) * n - (m : ℚ) * n = 0 := by
        rw [hcast]
        rw [hz]
        simp
      rcases htmp with rfl | rfl
      · exact le_abs.2 (Or.inr (by linarith))
      · exact le_abs.2 (Or.inl (by linarith))
    · have hzq : (1 : ℚ) ≤ (((k : ℤ) - (m : ℤ) : ℤ) : ℚ) := by exact_mod_cast hz
      have : (n : ℚ) ≤ (k : ℚ) * n - (m : ℚ) * n := by
        rw [hcast]
        nlinarith
      rcases htmp with rfl | rfl
      · exact le_abs.2 (Or.inl (by linarith))
      · exact le_abs.2 (Or.inl (by linarith))
  rw [decBit, hk, if_neg (not_lt.2 (by linarith))]

theorem generate_dither_signal_length (len : ℕ) (s : ℚ) (draws : ℕ → ℚ) :
    (generate_dither_signal len s draws).length = len := by
  simp [generate_dither_signal]

theorem generate_dither_signal_pair (len : ℕ) (s : ℚ) (draws : ℕ → ℚ)
    (hdr : ∀ k, -(s / 2) ≤ draws k ∧ draws k < s / 2) (k : ℕ) (hk : k < len) :
    DitherPair s ((generate_dither_signal len s draws).getD k (0, 0)) := by
  rw [generate_dither_signal, List.getD_eq_getElem?_getD, List.getElem?_map,
    List.getElem?_range hk]
  exact ⟨draws k, (hdr k).1, (hdr k).2, rfl⟩

/-- Per-coefficient QIM round trip: embedding one bit into one coefficient
with a valid dither pair and immediately decoding it recovers the bit, for a
natural step `n` with `1 ≤ n ≤ 2^30` and a coefficient at most `2^31`. -/
theorem coeff_roundtrip (n : ℕ) (hn : 1 ≤ n) (hn30 : n ≤ 2 ^ 30) (h : ℚ)
    (hh : h ≤ 2 ^ 31) (p : ℚ × ℚ) (hp : DitherPair (n : ℚ) p) (b : Bool) :
    decBit (roundVal (h + dsel b p) (n : ℚ) - dsel b p + p.1) (n : ℚ) = b := by
  obtain ⟨t, ht1, ht2, hpe⟩ := hp
  have hnq : (1 : ℚ) ≤ (n : ℚ) := by exact_mod_cast hn
  have hnq0 : (0 : ℚ) < (n : ℚ) := by linarith
  have hn29 : (n : ℚ) / 2 ≤ 2 ^ 29 := by
    have : (n : ℚ) ≤ 2 ^ 30 := by exact_mod_cast hn30
    linarith
  cases b with
  | false =>
    have hp1 : p.1 = t := by
      split_ifs at hpe <;> simp [hpe]
    have hd : dsel false p = t := by
      rw [dsel]
      simp [hp1]
    rw [hd, hp1]
    have heq : roundVal (h + t) (n : ℚ) - t + t = roundVal (h + t) (n : ℚ) := by
      ring
    rw [heq]
    obtain ⟨m, hm, hmb⟩ := roundVal_bounded (h + t) n hn hn30 (by linarith)
    have hcast : ((m * n : ℕ) : ℚ) = (m : ℚ) * (n : ℚ) := by push_cast; ring
    have hexact : roundVal ((m : ℚ) * (n : ℚ)) (n : ℚ) = (m : ℚ) * (n : ℚ) := by
      rw [← hcast]
      exact roundVal_mul_self n hn (by omega) m hmb
    rw [hm, decBit, hexact, sub_self, abs_zero,
      if_pos (div_pos hnq0 (by norm_num))]
  | true =>
    by_cases htpos : 0 < t
    · rw [if_pos htpos] at hpe
      have hd : dsel true p = t - (n : ℚ) / 2 := by simp [dsel, hpe]
      have hp1 : p.1 = t := by simp [hpe]
      rw [hd, hp1]
      obtain ⟨m, hm⟩ := roundVal_eq_mul (h + (t - (n : ℚ) / 2)) (n : ℚ)
      rw [hm]
      exact decBit_half n hn _ m (Or.inl (by ring))
    · rw [if_neg htpos] at hpe
      have hd : dsel true p = t + (n : ℚ) / 2 := by simp [dsel, hpe]
      have hp1 : p.1 = t := by simp [hpe]
      rw [hd, hp1]
      obtain ⟨m, hm⟩ := roundVal_eq_mul (h + (t + (n : ℚ) / 2)) (n : ℚ)
      rw [hm]
      exact decBit_half n hn _ m (Or.inr (by ring))

theorem roundtrip_list (n : ℕ) (hn : 1 ≤ n) (hn30 : n ≤ 2 ^ 30)
    (wm : List Bool) (dith : List (ℚ × ℚ)) (hw : wm.length = 12)
    (hdp : ∀ k, k < 12 → DitherPair (n : ℚ) (dith.getD k (0, 0))) :
    ∀ (l : List ℚ) (i j : ℕ), (∀ v ∈ l, v ≤ 2 ^ 31) → j + cnt l i ≤ 12 →
    extractSpec dith (n : ℚ) (embedSpec wm dith (n : ℚ) l i j) i j =
      (wm.drop j).take (cnt l i) := by
  intro l
  induction l with
  | nil => intro i j _ _; simp [embedSpec, extractSpec, cnt]
  | cons h t ih =>
    intro i j hb hcnt
    by_cases hin : in_range i
    · rw [cnt, if_pos hin] at hcnt ⊢
      have hj : j < 12 := by omega
      rw [embedSpec, if_pos hin, extractSpec, if_pos hin]
      rw [coeff_roundtrip n hn hn30 h (hb h (by simp)) _ (hdp j hj)
        (wm.getD j false)]
      rw [ih (i + 1) (j + 1) (fun v hv => hb v (by simp [hv])) (by omega)]
      have hdrop : wm.drop j = wm.getD j false :: wm.drop (j + 1) := by
        rw [List.getD_eq_getElem?_getD,
          List.getElem?_eq_getElem (show j < wm.length by omega)]
        exact List.drop_eq_getElem_cons _
      rw [hdrop, Nat.add_comm 1 (cnt t (i + 1)), List.take_succ_cons]
    · rw [cnt, if_neg hin] at hcnt ⊢
      rw [embedSpec, if_neg hin, extractSpec, if_neg hin]
      rw [ih (i + 1) j (fun v hv => hb v (by simp [hv])) (by omega)]
      simp

/-- C1 (amended): QIM round trip without distortion.  For every 64-element
block whose entries are at most `2^31`, every 12-bit pattern, and every dither
sequence produced by `generate_dither_signal (12, step, seed)`, extracting
immediately after embedding recovers the same 12 bits, whenever the step is an
integer with `10 ≤ step ≤ 2^30`.  (The integrality and magnitude restrictions
are forced: see the counterexample.) -/
theorem qim_roundtrip (n : ℕ) (hn10 : 10 ≤ n) (hn30 : n ≤ 2 ^ 30)
    (block : List ℚ) (hb : block.length = 64) (hbv : ∀ v ∈ block, v ≤ 2 ^ 31)
    (wm : List Bool) (hw : wm.length = 12) (draws : ℕ → ℚ)
    (hdr : ∀ k, -((n : ℚ) / 2) ≤ draws k ∧ draws k < (n : ℚ) / 2) :
    (embed_watermark block wm (generate_dither_signal 12 (n : ℚ) draws)
        (n : ℚ)).bind
      (fun out =>
        extract_watermark out (generate_dither_signal 12 (n : ℚ) draws)
          (n : ℚ)) = some wm := by
  have hn : 1 ≤ n := by omega
  set dith := generate_dither_signal 12 (n : ℚ) draws with hdith
  have hdl : dith.length = 12 := generate_dither_signal_length _ _ _
  have hdp : ∀ k, k < 12 → DitherPair (n : ℚ) (dith.getD k (0, 0)) :=
    fun k hk => generate_dither_signal_pair 12 _ draws hdr k hk
  have hs : toU32 (n : ℚ) ≠ 0 :=
    toU32_ne_zero (n : ℚ) (by exact_mod_cast hn)
  rw [embed_eq wm dith (n : ℚ) hs block hb (by omega) (by omega)]
  simp only [Option.some_bind]
  have hlen : (embedSpec wm dith (n : ℚ) block 0 0).length = 64 := by
    rw [embedSpec_length, hb]
  rw [extract_eq dith (n : ℚ) hs _ hlen (by omega)]
  rw [roundtrip_list n hn hn30 wm dith hw hdp block 0 0 hbv
    (by rw [cnt_64 block hb])]
  rw [List.drop_zero, cnt_64 block hb, ← hw, List.take_length]

theorem qim_roundtrip_witness :
    (embed_watermark (List.replicate 64 (0 : ℚ)) (List.replicate 12 false)
        (generate_dither_signal 12 ((10 : ℕ) : ℚ) (fun _ => 0))
        ((10 : ℕ) : ℚ)).bind
      (fun out =>
        extract_watermark out
          (generate_dither_signal 12 ((10 : ℕ) : ℚ) (fun _ => 0))
          ((10 : ℕ) : ℚ)) = some (List.replicate 12 false) :=
  qim_roundtrip 10 (by norm_num) (by norm_num) _ (by simp)
    (fun v hv => by rw [List.eq_of_mem_replicate hv]; norm_num) _ (by simp) _
    (fun k => by norm_num)

theorem in_range_0 : in_range 0 = false := by decide

theorem in_range_1 : in_range 1 = false := by decide

theorem in_range_2 : in_range 2 = false := by decide

theorem in_range_3 : in_range 3 = false := by decide

theorem in_range_4 : in_range 4 = true := by decide

theorem dither_zero_head (s : ℚ) :
    (generate_dither_signal 12 s (fun _ => 0)).getD 0 (0, 0) = (0, s / 2) := by
  rw [generate_dither_signal, List.getD_eq_getElem?_getD, List.getElem?_map,
    List.getElem?_range (by norm_num : (0 : ℕ) < 12)]
  norm_num

/-- Unfolding the first five positions of the embed-then-extract pipeline:
positions `0..3` are outside the mask and copied, position `4` is the first
mask position and carries bit `0` of the payload. -/
theorem spec_head (wm : List Bool) (dith : List (ℚ × ℚ)) (s : ℚ)
    (h0 h1 h2 h3 h4 : ℚ) (rest : List ℚ) :
    extractSpec dith s
        (embedSpec wm dith s (h0 :: h1 :: h2 :: h3 :: h4 :: rest) 0 0) 0 0 =
      decBit (roundVal (h4 + dsel (wm.getD 0 false) (dith.getD 0 (0, 0))) s -
          dsel (wm.getD 0 false) (dith.getD 0 (0, 0)) +
          (dith.getD 0 (0, 0)).1) s ::
        extractSpec dith s (embedSpec wm dith s rest 5 1) 5 1 := rfl

/-- C1 (counterexample): the round trip as originally claimed fails for
`step = 10` (an admissible step, on a block entry `2^32 + 1` that saturates
the `u32` cast) and also for the non-integral step `10.9 = 109/10` on the
block entry `1090`.  Both instances use dithers produced by
`generate_dither_signal` with all draws `0` and the all-zero 12-bit
pattern. -/
theorem qim_roundtrip_counterexample :
    ((10 : ℚ) ≤ 10 ∧
      (embed_watermark
            ((0 : ℚ) :: 0 :: 0 :: 0 :: 4294967297 :: List.replicate 59 0)
            (List.replicate 12 false)
            (generate_dither_signal 12 10 (fun _ => 0)) 10).bind
          (fun out =>
            extract_watermark out (generate_dither_signal 12 10 (fun _ => 0))
              10) ≠ some (List.replicate 12 false)) ∧
    ((10 : ℚ) ≤ 109 / 10 ∧
      (embed_watermark ((0 : ℚ) :: 0 :: 0 :: 0 :: 1090 :: List.replicate 59 0)
            (List.replicate 12 false)
            (generate_dither_signal 12 (109 / 10) (fun _ => 0)) (109 / 10)).bind
          (fun out =>
            extract_watermark out
              (generate_dither_signal 12 (109 / 10) (fun _ => 0))
              (109 / 10)) ≠ some (List.replicate 12 false)) := by
  constructor
  · refine ⟨le_refl 10, ?_⟩
    have hs : toU32 (10 : ℚ) ≠ 0 := by norm_num [toU32]
    have hb : ((0 : ℚ) :: 0 :: 0 :: 0 :: 4294967297 :: List.replicate 59 0).length
        = 64 := by simp
    rw [embed_eq _ _ _ hs _ hb (by simp) (by simp [generate_dither_signal])]
    simp only [Option.some_bind]
    rw [extract_eq _ _ hs _ (by rw [embedSpec_length]; exact hb)
      (by simp [generate_dither_signal])]
    have hwm0 : (List.replicate 12 false).getD 0 false = false := by decide
    have hr7 : rtrunc ((4294967297 : ℚ) / 10) = 429496729 :=
      rtrunc_eq_of_nonneg _ 429496729 (by norm_num) (by norm_num) (by norm_num)
    have hrv : roundVal (4294967297 : ℚ) 10 = 4294967300 := by
      rw [roundVal, rmod, hr7]
      rw [if_pos (by norm_num)]
      rw [toU32, if_neg (by norm_num), toU32, if_neg (by norm_num)]
      norm_num [Nat.min_def]
    have hr30 : rtrunc ((4294967300 : ℚ) / 10) = 429496730 :=
      rtrunc_eq_of_nonneg _ 429496730 (by norm_num) (by norm_num) (by norm_num)
    have hrv2 : roundVal (4294967300 : ℚ) 10 = 4294967290 := by
      rw [roundVal, rmod, hr30]
      rw [if_neg (by norm_num)]
      rw [toU32, if_neg (by norm_num), toU32, if_neg (by norm_num)]
      norm_num [Nat.min_def]
    have hdec : decBit (4294967300 : ℚ) 10 = true := by
      rw [decBit, hrv2, if_neg]
      rw [show (4294967290 : ℚ) - 4294967300 = -10 by norm_num, abs_neg,
        abs_of_nonneg (by norm_num : (0 : ℚ) ≤ 10)]
      norm_num
    rw [spec_head, hwm0, dither_zero_head (10 : ℚ)]
    rw [show dsel false ((0 : ℚ), (10 : ℚ) / 2) = 0 from rfl,
      show ((0 : ℚ), (10 : ℚ) / 2).1 = 0 from rfl]
    rw [show (4294967297 : ℚ) + 0 = 4294967297 by norm_num, hrv]
    rw [show (4294967300 : ℚ) - 0 + 0 = 4294967300 by norm_num, hdec]
    intro heq
    injection heq with heq'
    have h0 := congrArg (fun l : List Bool => l.getD 0 true) heq'
    simp only [List.getD_cons_zero] at h0
    rw [show (List.replicate 12 false).getD 0 true = false from rfl] at h0
    cases h0
  · refine ⟨by norm_num, ?_⟩
    have hr1 : rtrunc ((109 : ℚ) / 10) = 10 :=
      rtrunc_eq_of_nonneg _ 10 (by norm_num) (by norm_num) (by norm_num)
    have hs : toU32 ((109 : ℚ) / 10) ≠ 0 := by
      rw [toU32, if_neg (by norm_num), hr1]
      norm_num [Nat.min_def]
    have hb : ((0 : ℚ) :: 0 :: 0 :: 0 :: 1090 :: List.replicate 59 0).length
        = 64 := by simp
    rw [embed_eq _ _ _ hs _ hb (by simp) (by simp [generate_dither_signal])]
    simp only [Option.some_bind]
    rw [extract_eq _ _ hs _ (by rw [embedSpec_length]; exact hb)
      (by simp [generate_dither_signal])]
    have hwm0 : (List.replicate 12 false).getD 0 false = false := by decide
    have hrvB : roundVal (1090 : ℚ) (109 / 10) = 11881 / 10 := by
      rw [roundVal, rmod, show (1090 : ℚ) / (109 / 10) = 100 by norm_num]
      rw [if_neg (by norm_num)]
      rw [toU32, if_neg (by norm_num), toU32, if_neg (by norm_num), hr1]
      norm_num [Nat.min_def]
    have hr1188 : rtrunc ((11881 : ℚ) / 10) = 1188 :=
      rtrunc_eq_of_nonneg _ 1188 (by norm_num) (by norm_num) (by norm_num)
    have hrvB2 : roundVal ((11881 : ℚ) / 10) (109 / 10) = 12862 / 10 := by
      rw [roundVal, rmod, show ((11881 : ℚ) / 10) / (109 / 10) = 109 by norm_num]
      rw [if_neg (by norm_num)]
      rw [toU32, if_neg (by norm_num), toU32, if_neg (by norm_num), hr1, hr1188]
      norm_num [Nat.min_def]
    have hdecB : decBit ((11881 : ℚ) / 10) (109 / 10) = true := by
      rw [decBit, hrvB2, if_neg]
      rw [show (12862 : ℚ) / 10 - 11881 / 10 = 981 / 10 by norm_num,
        abs_of_nonneg (by norm_num : (0 : ℚ) ≤ 981 / 10)]
      norm_num
    rw [spec_head, hwm0, dither_zero_head ((109 : ℚ) / 10)]
    rw [show dsel false ((0 : ℚ), ((109 : ℚ) / 10) / 2) = 0 from rfl,
      show ((0 : ℚ), ((109 : ℚ) / 10) / 2).1 = 0 from rfl]
    rw [show (1090 : ℚ) + 0 = 1090 by norm_num, hrvB]
    rw [show (11881 : ℚ) / 10 - 0 + 0 = 11881 / 10 by norm_num, hdecB]
    intro heq
    injection heq with heq'
    have h0 := congrArg (fun l : List Bool => l.getD 0 true) heq'
    simp only [List.getD_cons_zero] at h0
    rw [show (List.replicate 12 false).getD 0 true = false from rfl] at h0
    cases h0

/-- C10 (amended): for every step with `1 ≤ step` (so that the truncated
`u32` divisor is nonzero), `round_to_step_size` returns a non-negative
natural multiple of the step, and returns exactly `0` on every strictly
negative input (the negative float collapses to `0` through the unsigned
cast).  For `0 < step < 1` the division panics instead: see the
counterexample. -/
theorem round_to_step_size_nonneg_multiple (s : ℚ) (hs : 1 ≤ s) (num : ℚ) :
    (∃ m : ℕ, round_to_step_size num s = some ((m : ℚ) * s) ∧
      0 ≤ (m : ℚ) * s) ∧
    (num < 0 → round_to_step_size num s = some 0) := by
  have hne := toU32_ne_zero s hs
  have hs0 : (0 : ℚ) ≤ s := by linarith
  constructor
  · obtain ⟨m, hm⟩ := roundVal_eq_mul num s
    exact ⟨m, by rw [round_to_step_size, if_neg hne, hm],
      mul_nonneg (by positivity) hs0⟩
  · intro hneg
    have hmod : rmod num s ≤ 0 := rmod_nonpos_of_neg num s hneg (by linarith)
    rw [round_to_step_size, if_neg hne, roundVal,
      if_neg (not_lt.2 (le_trans hmod (by positivity))), toU32, if_pos hneg]
    simp

theorem round_to_step_size_nonneg_multiple_witness :
    round_to_step_size (-7) 10 = some 0 :=
  (round_to_step_size_nonneg_multiple 10 (by norm_num) (-7)).2 (by norm_num)

/-- C10 (counterexample): for the positive step `1/2` the claimed behavior
fails: `round_to_step_size (-3) (1/2)` panics on the `u32` division by zero
(`none`) instead of returning `0`. -/
theorem round_to_step_size_counterexample :
    (0 : ℚ) < 1 / 2 ∧ round_to_step_size (-3) (1 / 2) = none := by
  refine ⟨by norm_num, ?_⟩
  have h : rtrunc ((1 : ℚ) / 2) = 0 :=
    rtrunc_eq_of_nonneg _ 0 (by norm_num) (by norm_num) (by norm_num)
  have h2 : toU32 ((1 : ℚ) / 2) = 0 := by
    rw [toU32, if_neg (by norm_num), h]
    simp
  rw [round_to_step_size, if_pos h2]

/-- C2: evaluation of `round_to_step_size` at the two inputs that contradict
the specified rounding rule.  At `(-10, 10)` the code returns `0` although the
nearest multiple of `10` is `-10` itself (negative inputs collapse through the
unsigned cast); at the tie `(15, 10)` the code returns `10` although the spec
requires ties to round up to `20`. -/
theorem round_to_step_size_negative_and_tie :
    round_to_step_size (-10) 10 = some 0 ∧
    round_to_step_size 15 10 = some 10 ∧
    (0 : ℚ) ≠ -10 ∧ (10 : ℚ) ≠ 20 := by
  refine ⟨?_, ?_, by norm_num, by norm_num⟩
  · norm_num [round_to_step_size, roundVal, rmod, toU32]
  · have h : rtrunc ((3 : ℚ) / 2) = 1 :=
      rtrunc_eq_of_nonneg _ 1 (by norm_num) (by norm_num) (by norm_num)
    norm_num [round_to_step_size, roundVal, rmod, toU32, h, Int.toNat_ofNat]

/-- C6: dither generation is deterministic (the model's ChaCha8 stream is a
function of the seed, so equal streams give bit-for-bit equal outputs), the
result has exactly 12 pairs, and pair `k` is built from the draw
`t = draws k` as `(t, t - step/2)` when `t > 0` and `(t, t + step/2)`
otherwise. -/
theorem generate_dither_deterministic (s : ℚ) (draws draws2 : ℕ → ℚ)
    (hsame : ∀ k, draws k = draws2 k) :
    generate_dither_signal 12 s draws = generate_dither_signal 12 s draws2 ∧
    (generate_dither_signal 12 s draws).length = 12 ∧
    ∀ k, k < 12 → (generate_dither_signal 12 s draws).getD k (0, 0) =
      (if 0 < draws k then (draws k, draws k - s / 2)
        else (draws k, draws k + s / 2)) := by
  refine ⟨?_, generate_dither_signal_length _ _ _, ?_⟩
  · unfold generate_dither_signal
    congr 1
    funext k
    rw [hsame k]
  · intro k hk
    rw [generate_dither_signal, List.getD_eq_getElem?_getD, List.getElem?_map,
      List.getElem?_range hk]
    rfl

theorem generate_dither_deterministic_witness :
    generate_dither_signal 12 5 (fun _ => 1) =
      generate_dither_signal 12 5 (fun _ => 1) :=
  (generate_dither_deterministic 5 (fun _ => 1) (fun _ => 1) (fun _ => rfl)).1

theorem extractSpec_zip (dith : List (ℚ × ℚ)) (s : ℚ) :
    ∀ (l : List ℚ) (i j : ℕ), j + cnt l i ≤ dith.length →
    extractSpec dith s l i j =
      ((inRangeVals l i).zip (dith.drop j)).map
        (fun q => decBit (q.1 + q.2.1) s) := by
  intro l
  induction l with
  | nil => intro i j _; simp [extractSpec, inRangeVals]
  | cons h t ih =>
    intro i j hc
    by_cases hin : in_range i
    · rw [cnt, if_pos hin] at hc
      have hj : j < dith.length := by omega
      rw [extractSpec, if_pos hin, inRangeVals, if_pos hin,
        List.drop_eq_getElem_cons hj, List.zip_cons_cons, List.map_cons,
        ih (i + 1) (j + 1) (by omega)]
      congr 2
      rw [List.getD_eq_getElem?_getD, List.getElem?_eq_getElem hj]
      rfl
    · rw [cnt, if_neg hin] at hc
      rw [extractSpec, if_neg hin, inRangeVals, if_neg hin]
      exact ih (i + 1) j (by omega)

theorem inRangeVals_eq_map : ∀ (l : List ℚ) (i : ℕ),
    inRangeVals l i =
      (((List.range l.length).filter (fun k => in_range (i + k))).map
        (fun k => l.getD k 0)) := by
  intro l
  induction l with
  | nil => intro i; simp [inRangeVals]
  | cons h t ih =>
    intro i
    have hcomp : ∀ R : List ℕ, (R.map Nat.succ).filter
        (fun k => in_range (i + k)) =
        (R.filter (fun k => in_range (i + 1 + k))).map Nat.succ := by
      intro R
      rw [List.filter_map]
      congr 1
      refine List.filter_congr ?_
      intro k _
      simp only [Function.comp_apply, Nat.succ_eq_add_one]
      rw [show i + (k + 1) = i + 1 + k by omega]
    rw [List.length_cons, List.range_succ_eq_map, List.filter_cons, hcomp]
    by_cases hin : in_range i
    · rw [inRangeVals, if_pos hin, ih (i + 1)]
      have h0 : (in_range (i + 0)) = true := by rwa [Nat.add_zero]
      rw [h0]
      simp only [if_true, List.map_cons, List.getD_cons_zero]
      congr 1
      rw [List.map_map]
      apply List.map_congr_left
      intro k _
      simp only [Function.comp_apply, Nat.succ_eq_add_one, List.getD_cons_succ]
    · rw [inRangeVals, if_neg hin, ih (i + 1)]
      have h0 : (in_range (i + 0)) = false := by simpa using hin
      rw [h0]
      simp only [Bool.false_eq_true, if_false]
      rw [List.map_map]
      apply List.map_congr_left
      intro k _
      simp only [Function.comp_apply, Nat.succ_eq_add_one, List.getD_cons_succ]

theorem extractSpec_64 (dith : List (ℚ × ℚ)) (s : ℚ) (block : List ℚ)
    (hb : block.length = 64) (hd : dith.length = 12) :
    extractSpec dith s block 0 0 =
      (([4, 5, 6, 7, 11, 12, 13, 14, 15, 18, 19, 20] : List ℕ).zip dith).map
        (fun q => decBit (block.getD q.1 0 + q.2.1) s) := by
  rw [extractSpec_zip dith s block 0 0 (by rw [cnt_64 block hb]; omega)]
  rw [inRangeVals_eq_map block 0, hb]
  rw [show (List.range 64).filter (fun k => in_range (0 + k)) =
    ([4, 5, 6, 7, 11, 12, 13, 14, 15, 18, 19, 20] : List ℕ) from by decide]
  rw [List.drop_zero, List.zip_map_left, List.map_map]
  apply List.map_congr_left
  intro q _
  rfl

/-- C5 (amended): for every 64-element block and 12 dither pairs, provided
`step_size ≥ 1` (so the `u32` divisor inside the quantizer is nonzero),
`extract_watermark` raises no error and returns exactly the 12 bits obtained
by scanning the mask positions `{4,5,6,7,11,12,13,14,15,18,19,20}` in
ascending order, decoding position `idx` with slot `k` as bit `0` exactly
when `|round_to_step_size (block[idx] + dithers[k].lo) - probe| < step/10`.
For `0 < step < 1` the quantizer panics instead: see the counterexample. -/
theorem extract_watermark_characterization (block : List ℚ)
    (dith : List (ℚ × ℚ)) (s : ℚ) (hb : block.length = 64)
    (hd : dith.length = 12) (hs : 1 ≤ s) :
    extract_watermark block dith s =
      some ((([4, 5, 6, 7, 11, 12, 13, 14, 15, 18, 19, 20] : List ℕ).zip
          dith).map (fun q => decBit (block.getD q.1 0 + q.2.1) s)) ∧
    ∀ bits, extract_watermark block dith s = some bits → bits.length = 12 := by
  have hsne := toU32_ne_zero s hs
  have hmain : extract_watermark block dith s =
      some ((([4, 5, 6, 7, 11, 12, 13, 14, 15, 18, 19, 20] : List ℕ).zip
        dith).map (fun q => decBit (block.getD q.1 0 + q.2.1) s)) := by
    rw [extract_eq dith s hsne block hb (by omega),
      extractSpec_64 dith s block hb hd]
  refine ⟨hmain, ?_⟩
  intro bits hbits
  rw [hmain] at hbits
  injection hbits with hbits
  rw [← hbits]
  simp [hd]

theorem extract_watermark_characterization_witness :
    extract_watermark (List.replicate 64 (0 : ℚ))
        (List.replicate 12 ((0 : ℚ), 5)) 10 =
      some ((([4, 5, 6, 7, 11, 12, 13, 14, 15, 18, 19, 20] : List ℕ).zip
          (List.replicate 12 ((0 : ℚ), 5))).map
        (fun q => decBit ((List.replicate 64 (0 : ℚ)).getD q.1 0 + q.2.1)
          10)) :=
  (extract_watermark_characterization _ _ _ (by simp) (by simp)
    (by norm_num)).1

theorem extractAux_none (dith : List (ℚ × ℚ)) (s : ℚ) (hs : toU32 s = 0) :
    ∀ (l : List ℚ) (i j : ℕ), cnt l i ≠ 0 → j < dith.length →
    extractAux dith s l i j = none := by
  intro l
  induction l with
  | nil => intro i j hc _; exact absurd rfl hc
  | cons h t ih =>
    intro i j hc hj
    by_cases hin : in_range i
    · rw [extractAux, if_pos hin, List.getElem?_eq_getElem hj]
      simp only [Option.some_bind]
      unfold round_to_step_size
      rw [if_pos hs]
      rfl
    · rw [extractAux, if_neg hin]
      refine ih (i + 1) j ?_ hj
      rw [cnt, if_neg hin] at hc
      simpa using hc

/-- C5 (counterexample): with the positive step `1/2` the extraction loop
panics on the `u32` division by zero inside the quantizer at the first mask
position, instead of returning 12 best-effort bits. -/
theorem extract_watermark_counterexample :
    extract_watermark (List.replicate 64 (0 : ℚ))
      (List.replicate 12 ((0 : ℚ), 5)) (1 / 2) = none := by
  have h : rtrunc ((1 : ℚ) / 2) = 0 :=
    rtrunc_eq_of_nonneg _ 0 (by norm_num) (by norm_num) (by norm_num)
  have h2 : toU32 ((1 : ℚ) / 2) = 0 := by
    rw [toU32, if_neg (by norm_num), h]
    simp
  unfold extract_watermark
  rw [extractAux_none _ _ h2 _ 0 0 (by rw [cnt_64 _ (by simp)]; omega)
    (by simp)]

theorem getD_replicate_false (n j : ℕ) :
    (List.replicate n false).getD j false = false := by
  rw [List.getD_eq_getElem?_getD, List.getElem?_replicate]
  split_ifs <;> rfl

theorem embedSpec_congr_wm (wm wm' : List Bool) (dith : List (ℚ × ℚ)) (s : ℚ)
    (hsame : ∀ j, wm.getD j false = wm'.getD j false) :
    ∀ (l : List ℚ) (i j : ℕ),
    embedSpec wm dith s l i j = embedSpec wm' dith s l i j := by
  intro l
  induction l with
  | nil => intro i j; rfl
  | cons h t ih =>
    intro i j
    by_cases hin : in_range i
    · rw [embedSpec, if_pos hin, embedSpec, if_pos hin, hsame j, ih]
    · rw [embedSpec, if_neg hin, embedSpec, if_neg hin, ih]

/-- C3: `embed_watermark` performs no payload-length check.  Handing it a
13-bit group on a 64-element block succeeds (returns `some`, no panic: the
final `assert!(j == 12)` counts mask positions, not consumed bits) and embeds
exactly what the 12-bit truncated prefix would embed — the 13th bit is
silently dropped, with no `PayloadLengthMismatch`-style failure. -/
theorem embed_watermark_accepts_13_bits :
    (∃ out, embed_watermark (List.replicate 64 (0 : ℚ))
        (List.replicate 13 false) (List.replicate 12 ((0 : ℚ), 5)) 10 =
        some out) ∧
    embed_watermark (List.replicate 64 (0 : ℚ)) (List.replicate 13 false)
        (List.replicate 12 ((0 : ℚ), 5)) 10 =
      embed_watermark (List.replicate 64 (0 : ℚ)) (List.replicate 12 false)
        (List.replicate 12 ((0 : ℚ), 5)) 10 := by
  have hs : toU32 (10 : ℚ) ≠ 0 := by norm_num [toU32]
  have h13 := embed_eq (List.replicate 13 false)
    (List.replicate 12 ((0 : ℚ), 5)) 10 hs (List.replicate 64 0) (by simp)
    (by simp) (by simp)
  have h12 := embed_eq (List.replicate 12 false)
    (List.replicate 12 ((0 : ℚ), 5)) 10 hs (List.replicate 64 0) (by simp)
    (by simp) (by simp)
  refine ⟨⟨_, h13⟩, ?_⟩
  rw [h13, h12]
  exact congrArg some (embedSpec_congr_wm _ _ _ _
    (fun j => by rw [getD_replicate_false, getD_replicate_false]) _ 0 0)

theorem foldl_set_getD {α : Type} (f : ℕ → α) :
    ∀ (R : List ℕ) (l : List α) (q : ℕ) (d : α),
    (R.foldl (fun acc i => acc.set i (f i)) l).getD q d =
      if q ∈ R ∧ q < l.length then f q else l.getD q d := by
  intro R
  induction R with
  | nil => intro l q d; simp
  | cons a R ih =>
    intro l q d
    rw [List.foldl_cons, ih]
    rw [List.length_set]
    by_cases hq : q < l.length
    · by_cases hm : q ∈ R
      · simp [hm, hq]
      · have hg : (l.set a (f a)).getD q d =
            if a = q then f a else l.getD q d := by
          rw [List.getD_eq_getElem?_getD, List.getElem?_set]
          by_cases ha : a = q
          · subst ha
            simp [hq]
          · simp [ha, List.getD_eq_getElem?_getD]
        rw [if_neg (by tauto), hg]
        by_cases ha : a = q
        · subst ha
          simp [hq]
        · have : ¬(q ∈ a :: R ∧ q < l.length) := by
            simp only [List.mem_cons]
            tauto
          rw [if_neg this, if_neg ha]
    · have h1 : ¬(q ∈ R ∧ q < l.length) := by tauto
      have h2 : ¬(q ∈ a :: R ∧ q < l.length) := by tauto
      rw [if_neg h1, if_neg h2]
      rw [List.getD_eq_getElem?_getD, List.getElem?_set]
      by_cases ha : a = q
      · subst ha
        simp [hq, List.getD_eq_getElem?_getD,
          List.getElem?_eq_none (show l.length ≤ a by omega)]
      · simp [ha, List.getD_eq_getElem?_getD]

theorem foldl_nested {α : Type} (g : ℕ → α → α) (l : α) :
    (List.range 8).foldl
        (fun pl j => (List.range 8).foldl (fun pl2 i => g (j * 8 + i) pl2) pl)
        l =
      (List.range 64).foldl (fun pl p => g p pl) l := by
  simp [List.range_succ]

theorem merge_single_fold (block : List ℚ) :
    merge_into_plane [block] 8 8 =
      (List.range 64).foldl
        (fun pl q => pl.set q (u8_sat (block.getD q 0)))
        (List.replicate 64 0) := by
  have hnest := foldl_nested
    (fun p (pl : List ℕ) => pl.set p (u8_sat (block.getD p 0)))
    (List.replicate 64 0)
  rw [merge_into_plane]
  rw [show List.enum [block] = [(0, block)] from rfl, List.foldl_cons,
    List.foldl_nil]
  rw [show (8 : ℕ) * 8 = 64 from rfl]
  refine Eq.trans ?_ hnest
  simp only []
  simp only [show ((0, block) : ℕ × List ℚ).1 = 0 from rfl,
    show ((0, block) : ℕ × List ℚ).2 = block from rfl,
    show (0 : ℕ) / (8 / 8) * 8 = 0 from rfl,
    show (0 : ℕ) % (8 / 8) * 8 = 0 from rfl, Nat.zero_add]

/-- C4 (amended): `merge_into_plane` converts each float sample back to a
byte with the saturating Rust cast `as u8` (`u8_sat`: truncation toward zero,
then clamping into `[0, 255]`), not modulo-256 wraparound: on a single-block
8x8 plane, byte `p` of the output plane is exactly `u8_sat` of block entry
`p`. -/
theorem merge_into_plane_saturating_cast (block : List ℚ) (p : ℕ)
    (hp : p < 64) :
    (merge_into_plane [block] 8 8).getD p 0 = u8_sat (block.getD p 0) := by
  rw [merge_single_fold, foldl_set_getD]
  simp [hp, List.mem_range]

theorem merge_into_plane_saturating_cast_witness :
    (merge_into_plane [(256 : ℚ) :: List.replicate 63 0] 8 8).getD 0 0 =
      u8_sat (((256 : ℚ) :: List.replicate 63 0).getD 0 0) :=
  merge_into_plane_saturating_cast ((256 : ℚ) :: List.replicate 63 0) 0
    (by norm_num)

/-- C4 (counterexample): on the sample value `256.0` the stored byte is the
saturated `255`, not `256 mod 256 = 0` as modulo-256 wraparound would give. -/
theorem merge_into_plane_no_wraparound :
    (merge_into_plane [(256 : ℚ) :: List.replicate 63 0] 8 8).getD 0 0 = 255 ∧
    (merge_into_plane [(256 : ℚ) :: List.replicate 63 0] 8 8).getD 0 0 ≠
      256 % 256 := by
  have hu : u8_sat (256 : ℚ) = 255 := by
    rw [u8_sat, if_neg (by norm_num)]
    norm_num [Nat.min_def]
  have hv : (merge_into_plane [(256 : ℚ) :: List.replicate 63 0] 8 8).getD 0 0
      = 255 := by
    rw [merge_single_fold, foldl_set_getD]
    simp [List.mem_range, hu]
  exact ⟨hv, by rw [hv]; decide⟩

/-- C7: `recode_to_rgb` performs no length check.  On the empty bit list with
declared dimensions `1 x 1` (`0 ≠ 1*1*3` bits) it silently returns the
all-black 1x1 image instead of rejecting the mismatch with a hard error. -/
theorem recode_to_rgb_accepts_empty :
    recode_to_rgb [] 1 1 = some [(0, 0, 0)] ∧
    ([] : List Bool).length ≠ 1 * 1 * 3 := ⟨rfl, by decide⟩

theorem set_take_succ {α : Type} :
    ∀ (img : List α) (p : ℕ) (v : α), p < img.length →
    (img.set p v).take (p + 1) = img.take p ++ [v] := by
  intro img
  induction img with
  | nil => intro p v hp; simp at hp
  | cons a t ih =>
    intro p v hp
    cases p with
    | zero => simp
    | succ q =>
      show ((a :: t).set (q + 1) v).take (q + 2) = (a :: t).take (q + 1) ++ [v]
      rw [List.set_cons_succ, List.take_succ_cons, List.take_succ_cons]
      rw [ih q v (by simpa using hp)]
      rfl

theorem writeSeq_full :
    ∀ (ps : List (ℕ × ℕ × ℕ)) (img : List (ℕ × ℕ × ℕ)) (p : ℕ),
    img.length = p + ps.length → writeSeq img p ps = img.take p ++ ps := by
  intro ps
  induction ps with
  | nil =>
    intro img p hl
    rw [writeSeq, List.take_of_length_le (by simp at hl; omega),
      List.append_nil]
  | cons v vs ih =>
    intro img p hl
    rw [writeSeq, ih _ (p + 1) (by simp; simp at hl; omega)]
    rw [set_take_succ img p v (by simp at hl; omega)]
    simp

theorem raster_step (w p : ℕ) (hw : 0 < w) :
    (p % w + 1) % w = (p + 1) % w ∧
    p / w + (if p % w + 1 = w then 1 else 0) = (p + 1) / w := by
  have hqr : w * (p / w) + p % w = p := Nat.div_add_mod p w
  have hrw : p % w < w := Nat.mod_lt _ hw
  by_cases hr : p % w + 1 = w
  · have h2 : w * (p / w + 1) = w * (p / w) + w := by ring
    have hp1 : p + 1 = w * (p / w + 1) := by omega
    constructor
    · rw [hr, hp1, Nat.mul_mod_right, Nat.mod_self]
    · rw [if_pos hr, hp1, Nat.mul_div_cancel_left _ hw]
  · have hr1 : p % w + 1 < w := by omega
    have hp1 : p + 1 = w * (p / w) + (p % w + 1) := by omega
    constructor
    · rw [hp1, Nat.mul_add_mod, Nat.mod_eq_of_lt hr1]
    · rw [if_neg hr, hp1, Nat.mul_add_div hw, Nat.div_eq_of_lt hr1,
        Nat.add_zero]

theorem pixTriples_length :
    ∀ (m : ℕ) (bits : List Bool), bits.length = 3 * m →
    (pixTriples bits).length = m := by
  intro m
  induction m with
  | zero =>
    intro bits hb
    have : bits = [] := List.eq_nil_of_length_eq_zero (by omega)
    subst this
    rfl
  | succ m ih =>
    intro bits hb
    rcases bits with _ | ⟨t0, bits⟩
    · simp at hb
    rcases bits with _ | ⟨t1, bits⟩
    · simp at hb; omega
    rcases bits with _ | ⟨t2, rest⟩
    · simp at hb; omega
    have hrest : rest.length = 3 * m := by simp at hb; omega
    rw [pixTriples, List.length_cons, ih rest hrest]

theorem rgbAux_spec (w h : ℕ) :
    ∀ (m : ℕ) (bits : List Bool), bits.length = 3 * m →
    ∀ (k p r g : ℕ) (img : List (ℕ × ℕ × ℕ)), img.length = w * h →
    p + m ≤ w * h →
    rgbAux w h bits (3 * k) (p % w) (p / w) r g img =
      some (writeSeq img p (pixTriples bits)) := by
  intro m
  induction m with
  | zero =>
    intro bits hb k p r g img _ _
    have : bits = [] := List.eq_nil_of_length_eq_zero (by omega)
    subst this
    rfl
  | succ m ih =>
    intro bits hb k p r g img himg hpm
    rcases bits with _ | ⟨t0, bits⟩
    · simp at hb
    rcases bits with _ | ⟨t1, bits⟩
    · simp at hb; omega
    rcases bits with _ | ⟨t2, rest⟩
    · simp at hb; omega
    have hrest : rest.length = 3 * m := by simp at hb; omega
    have hw0 : 0 < w := by
      rcases Nat.eq_zero_or_pos w with h0 | h0
      · rw [h0, Nat.zero_mul] at hpm; omega
      · exact h0
    have hp : p < w * h := by omega
    have hx : p % w < w := Nat.mod_lt _ hw0
    have hy : p / w < h := by
      rw [Nat.div_lt_iff_lt_mul hw0]
      rwa [Nat.mul_comm] at hp
    have h30 : (3 * k) % 3 = 0 := by omega
    have h31 : (3 * k + 1) % 3 = 1 := by omega
    have h32a : ¬((3 * k + 1 + 1) % 3 = 0) := by omega
    have h32b : ¬((3 * k + 1 + 1) % 3 = 1) := by omega
    rw [rgbAux, if_pos h30, rgbAux, if_neg (by omega), if_pos h31, rgbAux,
      if_neg h32a, if_neg h32b, if_pos ⟨hx, hy⟩]
    obtain ⟨hstep1, hstep2⟩ := raster_step w p hw0
    rw [hstep1, hstep2]
    have hpos : (p / w) * w + p % w = p := by
      rw [Nat.mul_comm]
      exact Nat.div_add_mod p w
    rw [hpos]
    rw [show 3 * k + 1 + 1 + 1 = 3 * (k + 1) by omega]
    rw [ih rest hrest (k + 1) (p + 1) (if t0 then 255 else 0)
      (if t1 then 255 else 0)
      (img.set p
        ((if t0 then 255 else 0), (if t1 then 255 else 0),
          (if t2 then 255 else 0)))
      (by rw [List.length_set]; exact himg) (by omega)]
    rw [pixTriples, writeSeq]

theorem recode_to_3bits_length (bytes : List ℕ) :
    (recode_to_3bits bytes).length = bytes.length := by
  simp [recode_to_3bits]

theorem flat_pixTriples :
    ∀ (m : ℕ) (bytes : List ℕ), bytes.length = 3 * m →
    flatRGB (pixTriples (recode_to_3bits bytes)) =
      bytes.map (fun b => if 127 < b then 255 else 0) := by
  intro m
  induction m with
  | zero =>
    intro bytes hb
    have : bytes = [] := List.eq_nil_of_length_eq_zero (by omega)
    subst this
    rfl
  | succ m ih =>
    intro bytes hb
    rcases bytes with _ | ⟨b0, bytes⟩
    · simp at hb
    rcases bytes with _ | ⟨b1, bytes⟩
    · simp at hb; omega
    rcases bytes with _ | ⟨b2, rest⟩
    · simp at hb; omega
    have hrest : rest.length = 3 * m := by simp at hb; omega
    have ih' := ih rest hrest
    rw [recode_to_3bits, List.map_cons, List.map_cons, List.map_cons,
      pixTriples, flatRGB,
      show List.map (fun byte => decide (127 < byte)) rest =
        recode_to_3bits rest from rfl, ih']
    rw [List.map_cons, List.map_cons, List.map_cons]
    simp only [decide_eq_true_eq]

/-- C8: bit-image round trip.  For every byte buffer whose length equals
`width * height * 3`, recoding to bits and back (`recode_to_rgb` of
`recode_to_3bits`) succeeds and produces the triple list whose flattened
channel-interleaved bytes are the byte-wise binarization of the input: every
byte above `127` becomes `255` and every other byte becomes `0`, in the same
raster positions. -/
theorem bit_image_round_trip (bytes : List ℕ) (w h : ℕ)
    (hlen : bytes.length = w * h * 3) :
    recode_to_rgb (recode_to_3bits bytes) w h =
      some (pixTriples (recode_to_3bits bytes)) ∧
    flatRGB (pixTriples (recode_to_3bits bytes)) =
      bytes.map (fun b => if 127 < b then 255 else 0) := by
  have hm : (recode_to_3bits bytes).length = 3 * (w * h) := by
    rw [recode_to_3bits_length, hlen]
    ring
  constructor
  · rw [recode_to_rgb]
    have hspec := rgbAux_spec w h (w * h) (recode_to_3bits bytes) hm 0 0 0 0
      (List.replicate (w * h) (0, 0, 0)) (by simp) (by omega)
    simp only [Nat.mul_zero, Nat.zero_mod, Nat.zero_div] at hspec
    rw [hspec]
    rw [writeSeq_full _ _ 0
      (by rw [List.length_replicate, Nat.zero_add,
        pixTriples_length (w * h) _ hm])]
    simp

  · exact flat_pixTriples (w * h) bytes (by rw [hlen]; ring)

theorem bit_image_round_trip_witness :
    recode_to_rgb (recode_to_3bits [0, 200, 255]) 1 1 =
      some (pixTriples (recode_to_3bits [0, 200, 255])) ∧
    flatRGB (pixTriples (recode_to_3bits [0, 200, 255])) =
      [0, 200, 255].map (fun b => if 127 < b then 255 else 0) :=
  bit_image_round_trip [0, 200, 255] 1 1 (by decide)
